import Mathlib

/-!
Shallow embedding of the color kernel of the Color-Palette-Generator
repository: hex codecs, the CPython `colorsys` HLS conversions it calls,
complementary colors, dominant-color assembly, and the WCAG luminance and
contrast computations.  CPython floats are modelled as exact rationals and
Python integers as `Int`; the non-rational real power `t ^ 2.4` used by the
luminance formula is kept as an abstract function parameter.
-/

/-- Digit character for a value below 16, as produced by Python `format`
with format code `x` (lowercase): codepoint 48 is the zero digit and
codepoint 87 + 10 is the letter a. -/
def hexChar (n : ℕ) : Char :=
  if n < 10 then Char.ofNat (48 + n) else Char.ofNat (87 + n)

/-- The sixteen lowercase hexadecimal digit characters, in value order. -/
def hexChars : List Char := (List.range 16).map hexChar

/-- Value of one hexadecimal digit character, upper or lower case, exactly
the digits accepted by CPython `int(s, 16)`, stated on codepoints: 48 to 57
are the decimal digits, 97 to 102 the lowercase and 65 to 70 the uppercase
hex letters. -/
def hexVal (c : Char) : Option ℕ :=
  if c.toNat ≤ 57 ∧ 48 ≤ c.toNat then some (c.toNat - 48)
  else if c.toNat ≤ 102 ∧ 97 ≤ c.toNat then some (c.toNat - 87)
  else if c.toNat ≤ 70 ∧ 65 ≤ c.toNat then some (c.toNat - 55)
  else none

/-- The ASCII whitespace characters CPython `int` strips from both ends,
by codepoint: space 32, tab 9, linefeed 10, vertical tab 11, form feed 12,
carriage return 13 (the app only ever passes ASCII hex strings, so
non-ASCII whitespace is out of the modelled character range). -/
def isPySpace (c : Char) : Bool :=
  c.toNat == 32 || (9 ≤ c.toNat && c.toNat ≤ 13)

/-- Digit-run scanner of CPython `int(s, 16)`: a nonempty hexadecimal digit
sequence in which a single underscore may appear between two digits.
`lastDigit` records whether the previous character was a digit. -/
def hexRun : List Char → ℕ → Bool → Option ℕ
  | [], acc, lastDigit => if lastDigit then some acc else none
  | c :: cs, acc, lastDigit =>
    match hexVal c with
    | some d => hexRun cs (16 * acc + d) true
    | none => if c == '_' && lastDigit then hexRun cs acc false else none

/-- Sign handling of CPython `int`: one optional leading `+` or `-`;
returns whether the value is negated together with the rest. -/
def pyStripSign (s : List Char) : Bool × List Char :=
  match s with
  | [] => (false, [])
  | c :: t => if c = '+' then (false, t) else if c = '-' then (true, t) else (false, s)

/-- Base-prefix handling of CPython `int(_, 16)`: an optional `0x` / `0X`
prefix, which may be followed by one underscore. -/
def pyStripHexMarker (s : List Char) : List Char :=
  match s with
  | c0 :: c1 :: t =>
    if c0 = '0' ∧ (c1 = 'x' ∨ c1 = 'X') then
      match t with
      | u :: t2 => if u = '_' then t2 else t
      | [] => []
    else s
  | _ => s

/-- CPython `int(s, 16)` on an ASCII character list: optional surrounding
whitespace, an optional single sign, an optional `0x` / `0X` prefix (which
may be followed by one underscore), then a digit run.  `none` models the
`ValueError` CPython raises. -/
def pyIntHex (s : List Char) : Option ℤ :=
  let s1 := ((s.dropWhile isPySpace).reverse.dropWhile isPySpace).reverse
  let sr := pyStripSign s1
  let body := pyStripHexMarker sr.2
  (hexRun body 0 false).map fun n => if sr.1 then -(n : ℤ) else (n : ℤ)

/-- Python slice `s[i:i+2]`, clamped at the end of the list. -/
def pySlice2 (s : List Char) (i : ℕ) : List Char := (s.drop i).take 2

/-- Function `hex_to_rgb` from the source (identical in all three files): strip every
leading `#` with `lstrip`, then parse the three slices `[0:2]`, `[2:4]`,
`[4:6]` with `int(_, 16)`.  `none` models the `ValueError` escaping the
generator expression when a slice does not parse. -/
def hex_to_rgb (s : List Char) : Option (ℤ × ℤ × ℤ) :=
  let t := s.dropWhile (· == '#')
  (pyIntHex (pySlice2 t 0)).bind fun a =>
    (pyIntHex (pySlice2 t 2)).bind fun b =>
      (pyIntHex (pySlice2 t 4)).map fun c => (a, b, c)

/-- Hexadecimal digit expansion with explicit fuel (the fuel only serves to
make the recursion structural; `natHexDigits` always supplies enough). -/
def natHexAux : ℕ → ℕ → List Char
  | 0, _ => []
  | fuel + 1, n =>
    if n < 16 then [hexChar n]
    else natHexAux fuel (n / 16) ++ [hexChar (n % 16)]

/-- Hexadecimal digit list (most significant digit first) of a natural
number, as produced by Python string formatting with format code `x`. -/
def natHexDigits (n : ℕ) : List Char := natHexAux (n + 1) n

/-- Python `format(n, "02x")`: lowercase hexadecimal, left-padded with `0`
to a total width of two; a negative number carries a leading minus sign that
counts toward the width.  Values needing more than two digits are printed in
full, never truncated. -/
def pyFormat02x (n : ℤ) : List Char :=
  if n < 0 then '-' :: natHexDigits (-n).toNat
  else
    let d := natHexDigits n.toNat
    if d.length = 1 then '0' :: d else d

/-- Function `rgb_to_hex` from the source (identical in all three files). -/
def rgb_to_hex (p : ℤ × ℤ × ℤ) : List Char :=
  '#' :: (pyFormat02x p.1 ++ pyFormat02x p.2.1 ++ pyFormat02x p.2.2)

/-- Function `colorsys.rgb_to_hls` from the CPython standard library, which the
source calls for every HSL conversion; floats modelled as rationals.
Returns `(hue, lightness, saturation)` with hue in turns. -/
def rgb_to_hls (r g b : ℚ) : ℚ × ℚ × ℚ :=
  let maxc := max r (max g b)
  let minc := min r (min g b)
  let sumc := maxc + minc
  let rangec := maxc - minc
  let l := sumc / 2
  if minc = maxc then (0, l, 0)
  else
    let s := if l ≤ 1 / 2 then rangec / sumc else rangec / (2 - sumc)
    let rc := (maxc - r) / rangec
    let gc := (maxc - g) / rangec
    let bc := (maxc - b) / rangec
    let h :=
      if r = maxc then bc - gc
      else if g = maxc then 2 + rc - bc
      else 4 + gc - rc
    (Int.fract (h / 6), l, s)

/-- The helper `colorsys._v`; Python `hue % 1.0` on finite floats is the
fractional part, `Int.fract`. -/
def hls_v (m1 m2 hue : ℚ) : ℚ :=
  let hue' := Int.fract hue
  if hue' < 1 / 6 then m1 + (m2 - m1) * hue' * 6
  else if hue' < 1 / 2 then m2
  else if hue' < 2 / 3 then m1 + (m2 - m1) * (2 / 3 - hue') * 6
  else m1

/-- Function `colorsys.hls_to_rgb` from the CPython standard library. -/
def hls_to_rgb (h l s : ℚ) : ℚ × ℚ × ℚ :=
  if s = 0 then (l, l, l)
  else
    let m2 := if l ≤ 1 / 2 then l * (1 + s) else l + s - l * s
    let m1 := 2 * l - m2
    (hls_v m1 m2 (h + 1 / 3), hls_v m1 m2 h, hls_v m1 m2 (h - 1 / 3))

/-- Python `int(x)` on a float: truncation toward zero. -/
def pyInt (q : ℚ) : ℤ := if q < 0 then ⌈q⌉ else ⌊q⌋

/-- The integer pixel computed inside `get_complementary_color` before hex
formatting: normalize by 255, convert to HLS, rotate the hue by 0.5 mod 1.0,
convert back with the unchanged lightness and saturation, scale each channel
by 255 and truncate with `int`. -/
def comp_pixel (p : ℤ × ℤ × ℤ) : ℤ × ℤ × ℤ :=
  let hls := rgb_to_hls ((p.1 : ℚ) / 255) ((p.2.1 : ℚ) / 255) ((p.2.2 : ℚ) / 255)
  let comp_h := Int.fract (hls.1 + 1 / 2)
  let c := hls_to_rgb comp_h hls.2.1 hls.2.2
  (pyInt (c.1 * 255), pyInt (c.2.1 * 255), pyInt (c.2.2 * 255))

/-- Function `get_complementary_color` from the source (v2 and v3 are identical). -/
def get_complementary_color (p : ℤ × ℤ × ℤ) : List Char :=
  rgb_to_hex (comp_pixel p)

/-- Function `calculate_luminance` from the source (the v2 top-level function; the
copy nested inside `main` of the first file computes the same expression),
lifted from a hex string to the pixel it denotes.  `rpow` stands for the real
power `t ^ 2.4` from `pow((x+0.055)/1.055, 2.4)`, kept abstract because a
non-integral real power has no exact rational value. -/
def calculate_luminance (rpow : ℚ → ℚ) (p : ℤ × ℤ × ℤ) : ℚ :=
  let res := [(p.1 : ℚ) / 255, (p.2.1 : ℚ) / 255, (p.2.2 : ℚ) / 255].map
    fun x => if x ≤ 0.03928 then x / 12.92 else rpow ((x + 0.055) / 1.055)
  0.2126 * res.getD 0 0 + 0.7152 * res.getD 1 0 + 0.0722 * res.getD 2 0

/-- One channel of the sRGB linearization exactly as the spec words it, for
comparison with the source function. -/
def linearize (rpow : ℚ → ℚ) (x : ℚ) : ℚ :=
  if x ≤ 0.03928 then x / 12.92 else rpow ((x + 0.055) / 1.055)

/-- The WCAG relative-luminance reference definition as the spec states it:
normalize each channel to `[0,1]`, linearize it, and combine with the
`0.2126 / 0.7152 / 0.0722` weights. -/
def wcagLuminance (rpow : ℚ → ℚ) (p : ℤ × ℤ × ℤ) : ℚ :=
  0.2126 * linearize rpow ((p.1 : ℚ) / 255)
    + 0.7152 * linearize rpow ((p.2.1 : ℚ) / 255)
    + 0.0722 * linearize rpow ((p.2.2 : ℚ) / 255)

/-- The contrast-ratio expression from `main` of the first source file:
`(lum1+0.05)/(lum2+0.05) if lum1 > lum2 else (lum2+0.05)/(lum1+0.05)`. -/
def contrast_ratio (lum1 lum2 : ℚ) : ℚ :=
  if lum2 < lum1 then (lum1 + 0.05) / (lum2 + 0.05) else (lum2 + 0.05) / (lum1 + 0.05)

/-- Contrast ratio of two colors as `main` computes it: the luminance of
each color, then `contrast_ratio`. -/
def contrast_of (rpow : ℚ → ℚ) (a b : ℤ × ℤ × ℤ) : ℚ :=
  contrast_ratio (calculate_luminance rpow a) (calculate_luminance rpow b)

/-- The sort keys offered by the sidebar select box. -/
inductive SortKey where
  | Frequency
  | Hue
  | Lightness
  | Saturation
deriving DecidableEq

/-- One entry of the `color_data` list built by `get_dominant_colors_v2`. -/
structure ColorData where
  rgb : ℤ × ℤ × ℤ
  hex : List Char
  percent : ℚ
deriving DecidableEq, Repr

/-- First-occurrence deduplication with an accumulator of already-seen
values. -/
def pyDedupAux : List ℕ → List ℕ → List ℕ
  | [], _ => []
  | x :: xs, seen =>
    if x ∈ seen then pyDedupAux xs seen else x :: pyDedupAux xs (x :: seen)

/-- Key order of a Python `Counter` built from a list: the distinct values
in order of first occurrence (dict insertion order). -/
def pyDedupKeys (l : List ℕ) : List ℕ := pyDedupAux l []

/-- The value of `colorsys.rgb_to_hls` on a pixel normalized by 255, the sort key basis
used by `get_dominant_colors_v2`. -/
def hlsOf (p : ℤ × ℤ × ℤ) : ℚ × ℚ × ℚ :=
  rgb_to_hls ((p.1 : ℚ) / 255) ((p.2.1 : ℚ) / 255) ((p.2.2 : ℚ) / 255)

/-- The sort key of an entry under a non-`Frequency` sort: the HLS component
named by the select box (for `Frequency` itself the source sorts descending
by `percent`; that arm is never used through this function). -/
def hlsComponent : SortKey → ColorData → ℚ
  | .Frequency, c => c.percent
  | .Hue, c => (hlsOf c.rgb).1
  | .Lightness, c => (hlsOf c.rgb).2.1
  | .Saturation, c => (hlsOf c.rgb).2.2

/-- Ascending comparison by a rational key, the relation behind
`list.sort(key=...)`. -/
def keyRel (f : ColorData → ℚ) (a b : ColorData) : Prop := f a ≤ f b

instance (f : ColorData → ℚ) : DecidableRel (keyRel f) :=
  fun a b => inferInstanceAs (Decidable (f a ≤ f b))

instance (f : ColorData → ℚ) : IsTotal ColorData (keyRel f) :=
  ⟨fun a b => le_total (f a) (f b)⟩

instance (f : ColorData → ℚ) : IsTrans ColorData (keyRel f) :=
  ⟨fun _ _ _ h1 h2 => le_trans h1 h2⟩

/-- Descending comparison by `percent`, the relation behind
`list.sort(key=lambda x: x["percent"], reverse=True)`: a stable sort under
this relation puts larger percentages first and keeps ties in input order,
exactly as CPython `reverse=True` does. -/
def freqRel (a b : ColorData) : Prop := b.percent ≤ a.percent

instance : DecidableRel freqRel :=
  fun a b => inferInstanceAs (Decidable (b.percent ≤ a.percent))

instance : IsTotal ColorData freqRel :=
  ⟨fun a b => le_total b.percent a.percent⟩

instance : IsTrans ColorData freqRel :=
  ⟨fun _ _ _ h1 h2 => le_trans h2 h1⟩

/-- The `color_data` list as built by the `for label, count in
label_counts.items()` loop: one record per `Counter` key, in key order,
holding the truncated centroid, its hex string, and its percentage of all
pixels. -/
def colorDataOf (pixels : List (ℤ × ℤ × ℤ)) (labels : List ℕ)
    (centers : ℕ → ℤ × ℤ × ℤ) : List ColorData :=
  (pyDedupKeys labels).map fun lab =>
    { rgb := centers lab, hex := rgb_to_hex (centers lab),
      percent := (labels.count lab : ℚ) / (pixels.length : ℚ) * 100 }

/-- The conditional second sort of `get_dominant_colors_v2`: nothing for
`Frequency`, otherwise a stable ascending sort by the chosen HLS component.
CPython `list.sort` is a stable sort; `List.insertionSort` is the stable
sort of the Lean library, producing the identical output (stable sorts
under a total preorder agree). -/
def sortStep : SortKey → List ColorData → List ColorData
  | .Frequency, l => l
  | .Hue, l => l.insertionSort (keyRel (hlsComponent .Hue))
  | .Lightness, l => l.insertionSort (keyRel (hlsComponent .Lightness))
  | .Saturation, l => l.insertionSort (keyRel (hlsComponent .Saturation))

/-- Function `get_dominant_colors_v2` from the source (v3 is identical), entered after
the external collaborators have run: `pixels` is the flattened downsampled
RGB grid and the fitted k-means result is supplied as `labels` (one cluster
index per pixel, `kmeans.labels_`) and `centers` (the integer-truncated
centroid for a cluster index, `kmeans.cluster_centers_.astype(int)`), since
the clustering library is outside the repository; `num_colors` reaches the
body only through that fitted result.  The body reproduces the source
line by line: one record per `Counter` key with its percentage of all
pixels, a sort descending by percentage, then an optional re-sort ascending
by one HLS component.  Python `list.sort` is a stable sort, modelled by
`List.mergeSort`. -/
def get_dominant_colors_v2 (pixels : List (ℤ × ℤ × ℤ)) (num_colors : ℕ)
    (labels : List ℕ) (centers : ℕ → ℤ × ℤ × ℤ) (sort_by : SortKey) : List ColorData :=
  let _ := num_colors
  sortStep sort_by ((colorDataOf pixels labels centers).insertionSort freqRel)

/-- A valid `Pixel` of the spec data model: three integer channels, each in
`[0, 255]`. -/
def validPixel (p : ℤ × ℤ × ℤ) : Prop :=
  0 ≤ p.1 ∧ p.1 ≤ 255 ∧ 0 ≤ p.2.1 ∧ p.2.1 ≤ 255 ∧ 0 ≤ p.2.2 ∧ p.2.2 ≤ 255

instance (p : ℤ × ℤ × ℤ) : Decidable (validPixel p) := by
  unfold validPixel; infer_instance

/-! ## Helper lemmas -/

/-- Python `int` of a value that is already an integer is that integer. -/
theorem pyInt_intCast (z : ℤ) : pyInt (z : ℚ) = z := by
  unfold pyInt
  split_ifs <;> simp

/-- The contrast-ratio expression equals the higher-luminance over
lower-luminance form. -/
theorem contrast_ratio_max_min (l1 l2 : ℚ) :
    contrast_ratio l1 l2 = (max l1 l2 + 0.05) / (min l1 l2 + 0.05) := by
  unfold contrast_ratio
  rcases lt_or_le l2 l1 with h | h
  · rw [if_pos h, max_eq_left h.le, min_eq_right h.le]
  · rw [if_neg (not_lt.mpr h), max_eq_right h, min_eq_left h]

/-- The contrast-ratio expression is symmetric in the two luminances. -/
theorem contrast_ratio_comm (l1 l2 : ℚ) : contrast_ratio l1 l2 = contrast_ratio l2 l1 := by
  rw [contrast_ratio_max_min, contrast_ratio_max_min, max_comm, min_comm]

/-- The luminance of a valid pixel is nonnegative whenever the abstract
power function is nonnegative. -/
theorem lum_nonneg (rpow : ℚ → ℚ) (hpow : ∀ t, 0 ≤ rpow t) (p : ℤ × ℤ × ℤ)
    (hp : validPixel p) : 0 ≤ calculate_luminance rpow p := by
  obtain ⟨h1, -, h3, -, h5, -⟩ := hp
  have c1 : (0 : ℚ) ≤ (p.1 : ℚ) / 255 := by positivity
  have c2 : (0 : ℚ) ≤ (p.2.1 : ℚ) / 255 := by positivity
  have c3 : (0 : ℚ) ≤ (p.2.2 : ℚ) / 255 := by positivity
  unfold calculate_luminance
  simp only [List.map_cons, List.map_nil, List.getD_cons_zero, List.getD_cons_succ]
  have t1 : (0 : ℚ) ≤
      if (p.1 : ℚ) / 255 ≤ 0.03928 then (p.1 : ℚ) / 255 / 12.92
      else rpow (((p.1 : ℚ) / 255 + 0.055) / 1.055) := by
    split_ifs
    · positivity
    · exact hpow _
  have t2 : (0 : ℚ) ≤
      if (p.2.1 : ℚ) / 255 ≤ 0.03928 then (p.2.1 : ℚ) / 255 / 12.92
      else rpow (((p.2.1 : ℚ) / 255 + 0.055) / 1.055) := by
    split_ifs
    · positivity
    · exact hpow _
  have t3 : (0 : ℚ) ≤
      if (p.2.2 : ℚ) / 255 ≤ 0.03928 then (p.2.2 : ℚ) / 255 / 12.92
      else rpow (((p.2.2 : ℚ) / 255 + 0.055) / 1.055) := by
    split_ifs
    · positivity
    · exact hpow _
  nlinarith [t1, t2, t3]

/-! ## Claim theorems: color theory -/

/-- C10: the complementary color of an achromatic pixel (R = G = B) is the
pixel itself: the HLS conversion takes the achromatic branch with hue 0 and
saturation 0, so the hue rotation has no effect and `hls_to_rgb` rebuilds
the channels from the lightness alone; hence `get_complementary_color`
returns a hex string whose three channel bytes are equal (indeed, the hex of
the original pixel). -/
theorem C10_complementary_achromatic (r : ℤ) :
    comp_pixel (r, r, r) = (r, r, r)
    ∧ get_complementary_color (r, r, r) = rgb_to_hex (r, r, r) := by
  have hx : rgb_to_hls ((r : ℚ) / 255) ((r : ℚ) / 255) ((r : ℚ) / 255)
      = (0, (r : ℚ) / 255, 0) := by
    unfold rgb_to_hls
    simp only [max_self, min_self, if_pos rfl]
    norm_num
  have hcp : comp_pixel (r, r, r) = (r, r, r) := by
    unfold comp_pixel
    simp only [hx]
    have hrgb : hls_to_rgb (Int.fract ((0 : ℚ) + 1 / 2)) ((r : ℚ) / 255) 0
        = ((r : ℚ) / 255, (r : ℚ) / 255, (r : ℚ) / 255) := by
      unfold hls_to_rgb
      simp
    rw [hrgb]
    have h255 : ((r : ℚ) / 255) * 255 = (r : ℚ) := by ring
    simp only [h255, pyInt_intCast]
  exact ⟨hcp, by unfold get_complementary_color; rw [hcp]⟩

/-- C6: the contrast ratio computed in `main` is symmetric in its two
colors, equals `(L_higher + 0.05) / (L_lower + 0.05)` for the greater and
lesser of the two relative luminances, and is therefore at least 1, for
every pair of valid pixels and any nonnegative model of the real power. -/
theorem C6_contrast_symmetric (rpow : ℚ → ℚ) (hpow : ∀ t, 0 ≤ rpow t)
    (a b : ℤ × ℤ × ℤ) (ha : validPixel a) (hb : validPixel b) :
    contrast_of rpow a b = contrast_of rpow b a
    ∧ contrast_of rpow a b =
        (max (calculate_luminance rpow a) (calculate_luminance rpow b) + 0.05) /
          (min (calculate_luminance rpow a) (calculate_luminance rpow b) + 0.05)
    ∧ 1 ≤ contrast_of rpow a b := by
  have la := lum_nonneg rpow hpow a ha
  have lb := lum_nonneg rpow hpow b hb
  refine ⟨by unfold contrast_of; rw [contrast_ratio_comm], contrast_ratio_max_min _ _, ?_⟩
  unfold contrast_of
  rw [contrast_ratio_max_min]
  have hmin : (0 : ℚ) < min (calculate_luminance rpow a) (calculate_luminance rpow b) + 0.05 := by
    have := le_min la lb
    linarith
  rw [le_div_iff₀ hmin, one_mul]
  have := min_le_max (a := calculate_luminance rpow a) (b := calculate_luminance rpow b)
  linarith

/-- Witness for C6 at the concrete pixels white and black with the constant
zero power model. -/
theorem C6_contrast_symmetric_witness :
    contrast_of (fun _ => 0) (255, 255, 255) (0, 0, 0)
        = contrast_of (fun _ => 0) (0, 0, 0) (255, 255, 255)
    ∧ contrast_of (fun _ => 0) (255, 255, 255) (0, 0, 0) =
        (max (calculate_luminance (fun _ => 0) (255, 255, 255))
            (calculate_luminance (fun _ => 0) (0, 0, 0)) + 0.05) /
          (min (calculate_luminance (fun _ => 0) (255, 255, 255))
            (calculate_luminance (fun _ => 0) (0, 0, 0)) + 0.05)
    ∧ 1 ≤ contrast_of (fun _ => 0) (255, 255, 255) (0, 0, 0) :=
  C6_contrast_symmetric (fun _ => 0) (fun _ => le_refl 0) (255, 255, 255) (0, 0, 0)
    (by decide) (by decide)

/-- C7: the source luminance function is exactly the WCAG reference
definition (channel normalized, linearized with the 0.03928 / 12.92 /
1.055 / 2.4 constants, combined with the 0.2126 / 0.7152 / 0.0722 weights),
and the contrast of pure white against pure black is exactly 21, which
passes the AA threshold 4.5; the only fact needed about the abstract real
power is that `1 ^ 2.4 = 1`. -/
theorem C7_luminance_wcag (rpow : ℚ → ℚ) (h1 : rpow 1 = 1) :
    (∀ p, calculate_luminance rpow p = wcagLuminance rpow p)
    ∧ contrast_of rpow (255, 255, 255) (0, 0, 0) = 21
    ∧ 4.5 ≤ contrast_of rpow (255, 255, 255) (0, 0, 0) := by
  have heq : ∀ p, calculate_luminance rpow p = wcagLuminance rpow p := by
    intro p
    unfold calculate_luminance wcagLuminance linearize
    simp only [List.map_cons, List.map_nil, List.getD_cons_zero, List.getD_cons_succ]
  have hw : calculate_luminance rpow (255, 255, 255) = 1 := by
    unfold calculate_luminance
    norm_num
    rw [h1]
    norm_num
  have hbl : calculate_luminance rpow (0, 0, 0) = 0 := by
    unfold calculate_luminance
    norm_num
  have hc : contrast_of rpow (255, 255, 255) (0, 0, 0) = 21 := by
    unfold contrast_of
    rw [hw, hbl]
    unfold contrast_ratio
    norm_num
  exact ⟨heq, hc, by rw [hc]; norm_num⟩

/-- Witness for C7 with the identity function as the power model (the real
function `t ^ 2.4` indeed maps 1 to 1). -/
theorem C7_luminance_wcag_witness :
    (∀ p, calculate_luminance (fun t => t) p = wcagLuminance (fun t => t) p)
    ∧ contrast_of (fun t => t) (255, 255, 255) (0, 0, 0) = 21
    ∧ 4.5 ≤ contrast_of (fun t => t) (255, 255, 255) (0, 0, 0) :=
  C7_luminance_wcag (fun t => t) rfl

/-! ## Counter-key and palette-assembly lemmas -/

/-- Membership in the first-occurrence deduplication: the elements of the
input not yet seen. -/
theorem mem_pyDedupAux (l : List ℕ) : ∀ (seen : List ℕ) (a : ℕ),
    a ∈ pyDedupAux l seen ↔ a ∈ l ∧ a ∉ seen := by
  induction l with
  | nil => intro seen a; simp [pyDedupAux]
  | cons x xs ih =>
    intro seen a
    by_cases hx : x ∈ seen
    · rw [pyDedupAux, if_pos hx, ih]
      constructor
      · rintro ⟨h1, h2⟩
        exact ⟨List.mem_cons_of_mem x h1, h2⟩
      · rintro ⟨h1, h2⟩
        rcases List.mem_cons.mp h1 with rfl | h1
        · exact absurd hx h2
        · exact ⟨h1, h2⟩
    · rw [pyDedupAux, if_neg hx]
      by_cases hax : a = x
      · subst hax
        simp [hx]
      · constructor
        · intro hmem
          rcases List.mem_cons.mp hmem with h | hmem2
          · exact absurd h hax
          · obtain ⟨h1, h2⟩ := (ih (x :: seen) a).mp hmem2
            exact ⟨List.mem_cons_of_mem x h1, fun hs => h2 (List.mem_cons_of_mem x hs)⟩
        · rintro ⟨h1, h2⟩
          rcases List.mem_cons.mp h1 with rfl | h1
          · exact absurd rfl hax
          · refine List.mem_cons_of_mem x ((ih (x :: seen) a).mpr ⟨h1, ?_⟩)
            intro hs
            rcases List.mem_cons.mp hs with h | h
            · exact hax h
            · exact h2 h

/-- The first-occurrence deduplication has no duplicates. -/
theorem nodup_pyDedupAux (l : List ℕ) : ∀ seen : List ℕ, (pyDedupAux l seen).Nodup := by
  induction l with
  | nil => intro seen; simp [pyDedupAux]
  | cons x xs ih =>
    intro seen
    by_cases hx : x ∈ seen
    · rw [pyDedupAux, if_pos hx]
      exact ih seen
    · rw [pyDedupAux, if_neg hx]
      refine List.nodup_cons.mpr ⟨fun hmem => ?_, ih _⟩
      exact ((mem_pyDedupAux xs (x :: seen) x).mp hmem).2 (List.mem_cons_self x seen)

/-- The `Counter` keys have no duplicates. -/
theorem pyDedupKeys_nodup (l : List ℕ) : (pyDedupKeys l).Nodup :=
  nodup_pyDedupAux l []

/-- The `Counter` keys are exactly the values occurring in the list. -/
theorem mem_pyDedupKeys (l : List ℕ) (a : ℕ) : a ∈ pyDedupKeys l ↔ a ∈ l := by
  simp [pyDedupKeys, mem_pyDedupAux]

/-- The `Counter` keys are a permutation of the library deduplication. -/
theorem pyDedupKeys_perm_dedup (l : List ℕ) : (pyDedupKeys l).Perm l.dedup :=
  (List.perm_ext_iff_of_nodup (pyDedupKeys_nodup l) l.nodup_dedup).mpr fun a => by
    rw [mem_pyDedupKeys, List.mem_dedup]

/-- The per-key counts over the `Counter` keys add up to the list length:
every element is counted exactly once. -/
theorem sum_counts_pyDedupKeys (l : List ℕ) :
    ((pyDedupKeys l).map fun a => l.count a).sum = l.length := by
  rw [((pyDedupKeys_perm_dedup l).map fun a => l.count a).sum_eq]
  exact List.sum_map_count_dedup_eq_length l

/-- When the label list is bounded by `k` and hits every cluster index
below `k` (the clustering contract: no empty clusters), there are exactly
`k` `Counter` keys. -/
theorem pyDedupKeys_length_eq (l : List ℕ) (k : ℕ)
    (hlt : ∀ a ∈ l, a < k) (honto : ∀ j < k, j ∈ l) :
    (pyDedupKeys l).length = k := by
  have hp : (pyDedupKeys l).Perm (List.range k) :=
    (List.perm_ext_iff_of_nodup (pyDedupKeys_nodup l) (List.nodup_range k)).mpr fun a => by
      rw [mem_pyDedupKeys, List.mem_range]
      exact ⟨fun h => hlt a h, fun h => honto a h⟩
  simpa using hp.length_eq

/-- The assembled palette is a permutation of the raw `color_data` list:
both sort phases only reorder. -/
theorem gdc_perm (pixels : List (ℤ × ℤ × ℤ)) (num_colors : ℕ) (labels : List ℕ)
    (centers : ℕ → ℤ × ℤ × ℤ) (sk : SortKey) :
    (get_dominant_colors_v2 pixels num_colors labels centers sk).Perm
      (colorDataOf pixels labels centers) := by
  have h1 : ((colorDataOf pixels labels centers).insertionSort freqRel).Perm
      (colorDataOf pixels labels centers) := List.perm_insertionSort _ _
  cases sk <;> simp only [get_dominant_colors_v2, sortStep] <;>
    first
      | exact h1
      | exact (List.perm_insertionSort _ _).trans h1

/-- Sums of casted counts scale. -/
theorem sum_map_cast_mul (L : List ℕ) (f : ℕ → ℕ) (c : ℚ) :
    (L.map fun a => (f a : ℚ) * c).sum = ((L.map f).sum : ℚ) * c := by
  induction L with
  | nil => simp
  | cons x xs ih =>
    simp only [List.map_cons, List.sum_cons, ih]
    push_cast
    ring

/-! ## Claim theorems: palette assembly -/

/-- Shared invariant of the assembled palette: one entry per cluster index
and weights summing to exactly 100, under the fitted clustering contract
(one label per pixel, labels below `k`, no empty cluster). -/
theorem palette_length_sum (pixels : List (ℤ × ℤ × ℤ)) (k : ℕ) (labels : List ℕ)
    (centers : ℕ → ℤ × ℤ × ℤ) (sk : SortKey)
    (hne : pixels ≠ [])
    (hlen : labels.length = pixels.length)
    (hlt : ∀ a ∈ labels, a < k) (honto : ∀ j < k, j ∈ labels) :
    (get_dominant_colors_v2 pixels k labels centers sk).length = k
    ∧ ((get_dominant_colors_v2 pixels k labels centers sk).map fun c => c.percent).sum
        = 100 := by
  have hperm := gdc_perm pixels k labels centers sk
  constructor
  · rw [hperm.length_eq]
    unfold colorDataOf
    rw [List.length_map]
    exact pyDedupKeys_length_eq labels k hlt honto
  · rw [(hperm.map fun c => c.percent).sum_eq]
    unfold colorDataOf
    rw [List.map_map]
    have htot : ((pixels.length : ℚ)) ≠ 0 := by
      have h0 : pixels.length ≠ 0 := by
        simpa [List.length_eq_zero] using hne
      exact_mod_cast h0
    have hfun : ((fun c : ColorData => c.percent) ∘ fun lab =>
        ({ rgb := centers lab, hex := rgb_to_hex (centers lab),
           percent := (labels.count lab : ℚ) / (pixels.length : ℚ) * 100 } : ColorData))
        = fun lab => ((labels.count lab : ℕ) : ℚ) * (100 / (pixels.length : ℚ)) := by
      funext lab
      simp only [Function.comp]
      ring
    rw [hfun, sum_map_cast_mul, sum_counts_pyDedupKeys, hlen]
    field_simp

/-- C4: for every palette built by `get_dominant_colors_v2` on a nonempty
pixel grid with `k` in `[3, 10]`, given the fitted clustering contract (one
label per pixel, labels below `k`, no empty cluster), the palette has
exactly `k` entries and its weights sum to exactly 100 (the spec asks for
100 within 0.01 percent; in exact rational arithmetic the sum is 100 on the
nose, because every sampled pixel is counted in exactly one cluster). -/
theorem C4_palette_invariants (pixels : List (ℤ × ℤ × ℤ)) (k : ℕ) (labels : List ℕ)
    (centers : ℕ → ℤ × ℤ × ℤ) (sk : SortKey)
    (_hk : 3 ≤ k ∧ k ≤ 10)
    (hne : pixels ≠ [])
    (hlen : labels.length = pixels.length)
    (hlt : ∀ a ∈ labels, a < k) (honto : ∀ j < k, j ∈ labels) :
    (get_dominant_colors_v2 pixels k labels centers sk).length = k
    ∧ ((get_dominant_colors_v2 pixels k labels centers sk).map fun c => c.percent).sum
        = 100 :=
  palette_length_sum pixels k labels centers sk hne hlen hlt honto

/-- Witness for C4 on a concrete four-pixel grid with three clusters. -/
theorem C4_palette_invariants_witness :
    (get_dominant_colors_v2 [(0, 0, 0), (10, 10, 10), (20, 20, 20), (0, 0, 0)] 3
        [0, 1, 2, 0] (fun j => ((j : ℤ), (j : ℤ), (j : ℤ))) .Frequency).length = 3
    ∧ ((get_dominant_colors_v2 [(0, 0, 0), (10, 10, 10), (20, 20, 20), (0, 0, 0)] 3
        [0, 1, 2, 0] (fun j => ((j : ℤ), (j : ℤ), (j : ℤ))) .Frequency).map
        fun c => c.percent).sum = 100 :=
  C4_palette_invariants [(0, 0, 0), (10, 10, 10), (20, 20, 20), (0, 0, 0)] 3
    [0, 1, 2, 0] (fun j => ((j : ℤ), (j : ℤ), (j : ℤ))) .Frequency
    (by decide) (by decide) (by decide) (by decide) (by decide)

/-- C3 amended: `get_dominant_colors_v2` performs no validation at all: for
every `num_colors` (also outside `[3, 10]`), every pixel grid (also empty)
and every fitted clustering it returns an ordinary palette with one entry
per occurring label, never an `EmptyImage` or `InvalidColorCount` failure;
the source contains no check of `k` or of emptiness, the slider in `main`
alone keeps `k` in `[3, 10]`, and an empty grid or `k` above the sample
count only fails inside the external clustering library call. -/
theorem C3_no_validation (pixels : List (ℤ × ℤ × ℤ)) (num_colors : ℕ) (labels : List ℕ)
    (centers : ℕ → ℤ × ℤ × ℤ) (sk : SortKey) :
    (get_dominant_colors_v2 pixels num_colors labels centers sk).length
      = (pyDedupKeys labels).length := by
  rw [(gdc_perm pixels num_colors labels centers sk).length_eq]
  unfold colorDataOf
  exact List.length_map _ _

/-- Counterexample for C3: with `k = 2`, which is outside `[3, 10]`, and a
well-formed two-cluster fit of a nonempty two-pixel grid,
`get_dominant_colors_v2` does not fail with `InvalidColorCount` (no failure
exists in the code); it returns an ordinary two-entry palette. -/
theorem C3_counterexample :
    ¬ (3 ≤ 2 ∧ 2 ≤ 10)
    ∧ (∀ lab ∈ [0, 1], lab < 2) ∧ (∀ j < 2, j ∈ [0, 1])
    ∧ get_dominant_colors_v2 [(0, 0, 0), (255, 255, 255)] 2 [0, 1]
        (fun j => if j = 0 then (0, 0, 0) else (255, 255, 255)) .Frequency
      = [⟨(0, 0, 0), '#' :: ['0', '0', '0', '0', '0', '0'], 50⟩,
         ⟨(255, 255, 255), '#' :: ['f', 'f', 'f', 'f', 'f', 'f'], 50⟩] := by
  refine ⟨by decide, by decide, by decide, ?_⟩
  have h1 : rgb_to_hex (0, 0, 0) = '#' :: ['0', '0', '0', '0', '0', '0'] := by decide
  have h2 : rgb_to_hex (255, 255, 255) = '#' :: ['f', 'f', 'f', 'f', 'f', 'f'] := by decide
  have hkeys : pyDedupKeys [0, 1] = [0, 1] := rfl
  unfold get_dominant_colors_v2 sortStep colorDataOf
  rw [hkeys]
  simp only [List.map_cons, List.map_nil, List.count_cons, List.count_nil, List.length_cons,
    List.length_nil]
  norm_num [h1, h2]
  simp [List.insertionSort, List.orderedInsert, freqRel]
  exact h1

/-- C9: on an all-black image (after the external downsampling the pixel
grid is still all black), a fit with three clusters whose centroids are all
`(0, 0, 0)` (the truncated mean of any nonempty set of black pixels) yields
a palette of exactly 3 entries, each with hex `#000000`, weights summing to
exactly 100, and relative luminance 0 for every entry. -/
theorem C9_solid_black (pixels : List (ℤ × ℤ × ℤ)) (labels : List ℕ)
    (centers : ℕ → ℤ × ℤ × ℤ) (sk : SortKey) (rpow : ℚ → ℚ)
    (_hpix : ∀ p ∈ pixels, p = ((0 : ℤ), (0 : ℤ), (0 : ℤ))) (hne : pixels ≠ [])
    (hlen : labels.length = pixels.length)
    (hlt : ∀ a ∈ labels, a < 3) (honto : ∀ j < 3, j ∈ labels)
    (hcent : ∀ j ∈ labels, centers j = (0, 0, 0)) :
    (get_dominant_colors_v2 pixels 3 labels centers sk).length = 3
    ∧ (∀ c ∈ get_dominant_colors_v2 pixels 3 labels centers sk,
        c.hex = '#' :: ['0', '0', '0', '0', '0', '0'])
    ∧ ((get_dominant_colors_v2 pixels 3 labels centers sk).map fun c => c.percent).sum
        = 100
    ∧ ∀ c ∈ get_dominant_colors_v2 pixels 3 labels centers sk,
        calculate_luminance rpow c.rgb = 0 := by
  obtain ⟨hlength, hsum⟩ :=
    palette_length_sum pixels 3 labels centers sk hne hlen hlt honto
  have hmem : ∀ c ∈ get_dominant_colors_v2 pixels 3 labels centers sk,
      c.rgb = (0, 0, 0) ∧ c.hex = rgb_to_hex (0, 0, 0) := by
    intro c hc
    have hc2 : c ∈ colorDataOf pixels labels centers :=
      (gdc_perm pixels 3 labels centers sk).mem_iff.mp hc
    unfold colorDataOf at hc2
    obtain ⟨lab, hlab, rfl⟩ := List.mem_map.mp hc2
    have hlabmem : lab ∈ labels := (mem_pyDedupKeys labels lab).mp hlab
    rw [hcent lab hlabmem]
    exact ⟨rfl, rfl⟩
  have hhex : rgb_to_hex (0, 0, 0) = '#' :: ['0', '0', '0', '0', '0', '0'] := by decide
  refine ⟨hlength, ?_, hsum, ?_⟩
  · intro c hc
    rw [(hmem c hc).2, hhex]
  · intro c hc
    rw [(hmem c hc).1]
    unfold calculate_luminance
    norm_num

/-- Witness for C9 on a concrete four-pixel all-black grid with a
three-cluster fit. -/
theorem C9_solid_black_witness :
    (get_dominant_colors_v2 [(0, 0, 0), (0, 0, 0), (0, 0, 0), (0, 0, 0)] 3 [0, 1, 2, 0]
        (fun _ => (0, 0, 0)) .Frequency).length = 3
    ∧ (∀ c ∈ get_dominant_colors_v2 [(0, 0, 0), (0, 0, 0), (0, 0, 0), (0, 0, 0)] 3
        [0, 1, 2, 0] (fun _ => (0, 0, 0)) .Frequency,
        c.hex = '#' :: ['0', '0', '0', '0', '0', '0'])
    ∧ ((get_dominant_colors_v2 [(0, 0, 0), (0, 0, 0), (0, 0, 0), (0, 0, 0)] 3 [0, 1, 2, 0]
        (fun _ => (0, 0, 0)) .Frequency).map fun c => c.percent).sum = 100
    ∧ ∀ c ∈ get_dominant_colors_v2 [(0, 0, 0), (0, 0, 0), (0, 0, 0), (0, 0, 0)] 3
        [0, 1, 2, 0] (fun _ => (0, 0, 0)) .Frequency,
        calculate_luminance (fun _ => 0) c.rgb = 0 :=
  C9_solid_black [(0, 0, 0), (0, 0, 0), (0, 0, 0), (0, 0, 0)] [0, 1, 2, 0]
    (fun _ => (0, 0, 0)) .Frequency (fun _ => 0)
    (by decide) (by decide) (by decide) (by decide) (by decide) (by decide)

/-- A stable sort does not move elements on which the sort key is constant:
filtering the sorted list by any one key value gives the same sequence as
filtering the input. -/
theorem filter_insertionSort_of_const {α : Type} (r : α → α → Prop) [DecidableRel r]
    (p : α → Bool) (hp : ∀ a b, p a = true → p b = true → r a b) (l : List α) :
    (l.insertionSort r).filter p = l.filter p := by
  have h1 : (l.filter p).Pairwise r :=
    List.pairwise_of_forall_mem_list fun a ha b hb =>
      hp a b (List.of_mem_filter ha) (List.of_mem_filter hb)
  have h2 : (l.filter p).Sublist (l.insertionSort r) :=
    List.sublist_insertionSort h1 (List.filter_sublist l)
  have h3 := h2.filter p
  rw [List.filter_filter] at h3
  have h3' : (l.filter p).Sublist ((l.insertionSort r).filter p) := by
    simpa [Bool.and_self] using h3
  have h4 : ((l.insertionSort r).filter p).length = (l.filter p).length :=
    ((List.perm_insertionSort r l).filter p).length_eq
  exact (h3'.eq_of_length h4.symm).symm

/-- C5: the two-phase sort of `get_dominant_colors_v2`.  The first phase
(which is the whole story for `Frequency`, and the input of the second
phase otherwise) is ordered descending by weight; for every other sort key
the final output is non-decreasing in the chosen HLS component, and
restricting output and phase-1 sequence to the entries of any one component
value gives the same sequence — the stable sort keeps entries with equal
component values in their prior frequency-descending relative order. -/
theorem C5_two_phase_stable_sort (pixels : List (ℤ × ℤ × ℤ)) (k : ℕ) (labels : List ℕ)
    (centers : ℕ → ℤ × ℤ × ℤ) (sk : SortKey) (v : ℚ) (hsk : sk ≠ SortKey.Frequency) :
    ((colorDataOf pixels labels centers).insertionSort freqRel).Pairwise freqRel
    ∧ get_dominant_colors_v2 pixels k labels centers .Frequency
        = (colorDataOf pixels labels centers).insertionSort freqRel
    ∧ (get_dominant_colors_v2 pixels k labels centers sk).Pairwise
        (keyRel (hlsComponent sk))
    ∧ (get_dominant_colors_v2 pixels k labels centers sk).filter
          (fun c => decide (hlsComponent sk c = v))
        = ((colorDataOf pixels labels centers).insertionSort freqRel).filter
          (fun c => decide (hlsComponent sk c = v)) := by
  refine ⟨List.sorted_insertionSort freqRel _, rfl, ?_, ?_⟩
  · cases sk
    · exact absurd rfl hsk
    all_goals exact List.sorted_insertionSort _ _
  · have harg : ∀ a b : ColorData,
        decide (hlsComponent sk a = v) = true → decide (hlsComponent sk b = v) = true →
        keyRel (hlsComponent sk) a b := by
      intro a b ha hb
      simp only [decide_eq_true_eq] at ha hb
      exact le_of_eq (ha.trans hb.symm)
    cases sk
    · exact absurd rfl hsk
    all_goals exact filter_insertionSort_of_const _ _ harg _

/-- Witness for C5 at a concrete two-pixel grid, sorting by hue. -/
theorem C5_two_phase_stable_sort_witness :
    ((colorDataOf [(255, 0, 0), (0, 255, 0)] [0, 1]
        (fun j => if j = 0 then (255, 0, 0) else (0, 255, 0))).insertionSort
        freqRel).Pairwise freqRel
    ∧ get_dominant_colors_v2 [(255, 0, 0), (0, 255, 0)] 2 [0, 1]
        (fun j => if j = 0 then (255, 0, 0) else (0, 255, 0)) .Frequency
        = (colorDataOf [(255, 0, 0), (0, 255, 0)] [0, 1]
            (fun j => if j = 0 then (255, 0, 0) else (0, 255, 0))).insertionSort freqRel
    ∧ (get_dominant_colors_v2 [(255, 0, 0), (0, 255, 0)] 2 [0, 1]
        (fun j => if j = 0 then (255, 0, 0) else (0, 255, 0)) .Hue).Pairwise
        (keyRel (hlsComponent .Hue))
    ∧ (get_dominant_colors_v2 [(255, 0, 0), (0, 255, 0)] 2 [0, 1]
          (fun j => if j = 0 then (255, 0, 0) else (0, 255, 0)) .Hue).filter
          (fun c => decide (hlsComponent .Hue c = 0))
        = ((colorDataOf [(255, 0, 0), (0, 255, 0)] [0, 1]
            (fun j => if j = 0 then (255, 0, 0) else (0, 255, 0))).insertionSort
            freqRel).filter (fun c => decide (hlsComponent .Hue c = 0)) :=
  C5_two_phase_stable_sort [(255, 0, 0), (0, 255, 0)] 2 [0, 1]
    (fun j => if j = 0 then (255, 0, 0) else (0, 255, 0)) .Hue 0 (by decide)

/-! ## Hex codec lemmas -/

/-- Every lowercase hex digit character carries a value below 16, is
recognised by `hexVal`, and is recovered by `hexChar`. -/
theorem lower_hex_char_spec (c : Char) (hc : c ∈ hexChars) :
    hexVal c = some ((hexVal c).getD 0)
    ∧ (hexVal c).getD 0 < 16
    ∧ hexChar ((hexVal c).getD 0) = c := by
  rw [hexChars] at hc
  obtain ⟨d, hd, rfl⟩ := List.mem_map.mp hc
  rw [List.mem_range] at hd
  interval_cases d <;> exact ⟨by decide, by decide, by decide⟩

/-- CPython `int(_, 16)` of a two-digit string built from digit values
below 16. -/
theorem pyIntHex_two_digits (d1 d2 : ℕ) (h1 : d1 < 16) (h2 : d2 < 16) :
    pyIntHex [hexChar d1, hexChar d2] = some (16 * (d1 : ℤ) + d2) := by
  interval_cases d1 <;> interval_cases d2 <;> decide

/-- A digit character is never the `#` stripped by `lstrip`. -/
theorem hexChar_ne_hash (d : ℕ) (h : d < 16) : (hexChar d == '#') = false := by
  interval_cases d <;> decide

/-- Evaluation of `natHexAux` with any positive fuel on a single digit. -/
theorem natHexAux_small (fuel n : ℕ) (hf : 1 ≤ fuel) (hn : n < 16) :
    natHexAux fuel n = [hexChar n] := by
  cases fuel with
  | zero => omega
  | succ f => simp [natHexAux, hn]

/-- Python `format(n, "02x")` of a byte value is exactly its two hex digit
characters. -/
theorem pyFormat02x_eq (n : ℤ) (h0 : 0 ≤ n) (h1 : n ≤ 255) :
    pyFormat02x n = [hexChar (n.toNat / 16), hexChar (n.toNat % 16)] := by
  unfold pyFormat02x
  rw [if_neg (not_lt.mpr h0)]
  by_cases h16 : n.toNat < 16
  · have hd : natHexDigits n.toNat = [hexChar n.toNat] :=
      natHexAux_small _ _ (by omega) h16
    rw [hd]
    simp only [List.length_cons, List.length_nil, if_pos rfl]
    rw [Nat.div_eq_of_lt h16, Nat.mod_eq_of_lt h16]
    rfl
  · have hlt : n.toNat / 16 < 16 := by omega
    have hd : natHexDigits n.toNat
        = [hexChar (n.toNat / 16), hexChar (n.toNat % 16)] := by
      unfold natHexDigits
      rw [show natHexAux (n.toNat + 1) n.toNat
          = natHexAux n.toNat (n.toNat / 16) ++ [hexChar (n.toNat % 16)] by
        simp [natHexAux, h16]]
      rw [natHexAux_small _ _ (by omega) hlt]
      rfl
    rw [hd]
    simp

/-- Formatting a valid pixel with `rgb_to_hex` gives `#` followed by the six digit characters
of the three channel bytes. -/
theorem rgb_to_hex_valid (p : ℤ × ℤ × ℤ) (hp : validPixel p) :
    rgb_to_hex p = '#' :: [hexChar (p.1.toNat / 16), hexChar (p.1.toNat % 16),
      hexChar (p.2.1.toNat / 16), hexChar (p.2.1.toNat % 16),
      hexChar (p.2.2.toNat / 16), hexChar (p.2.2.toNat % 16)] := by
  obtain ⟨a0, a255, b0, b255, c0, c255⟩ := hp
  unfold rgb_to_hex
  rw [pyFormat02x_eq _ a0 a255, pyFormat02x_eq _ b0 b255, pyFormat02x_eq _ c0 c255]
  rfl

/-- Parsing with `hex_to_rgb` any string whose `#`-stripped content starts with six
digit characters parses those six digits (and ignores everything after
them). -/
theorem hex_to_rgb_of_six_digits (s : List Char) (d1 d2 d3 d4 d5 d6 : ℕ)
    (rest : List Char) (h1 : d1 < 16) (h2 : d2 < 16) (h3 : d3 < 16)
    (h4 : d4 < 16) (h5 : d5 < 16) (h6 : d6 < 16)
    (hs : s.dropWhile (· == '#') = hexChar d1 :: hexChar d2 :: hexChar d3 ::
      hexChar d4 :: hexChar d5 :: hexChar d6 :: rest) :
    hex_to_rgb s
      = some (16 * (d1 : ℤ) + d2, 16 * (d3 : ℤ) + d4, 16 * (d5 : ℤ) + d6) := by
  unfold hex_to_rgb
  rw [hs]
  dsimp only
  rw [show pySlice2 (hexChar d1 :: hexChar d2 :: hexChar d3 :: hexChar d4 ::
      hexChar d5 :: hexChar d6 :: rest) 0 = [hexChar d1, hexChar d2] from rfl]
  rw [show pySlice2 (hexChar d1 :: hexChar d2 :: hexChar d3 :: hexChar d4 ::
      hexChar d5 :: hexChar d6 :: rest) 2 = [hexChar d3, hexChar d4] from rfl]
  rw [show pySlice2 (hexChar d1 :: hexChar d2 :: hexChar d3 :: hexChar d4 ::
      hexChar d5 :: hexChar d6 :: rest) 4 = [hexChar d5, hexChar d6] from rfl]
  rw [pyIntHex_two_digits _ _ h1 h2, pyIntHex_two_digits _ _ h3 h4,
    pyIntHex_two_digits _ _ h5 h6]
  rfl

/-! ## Claim theorems: hex codec -/

/-- C1: the hex codec round-trips in both directions.  For every valid
pixel, parsing its formatted hex string returns the pixel; and every string
of the shape `#` followed by six lowercase hex digits parses to a pixel
that formats back to the same string. -/
theorem C1_hex_round_trip (p : ℤ × ℤ × ℤ) (hp : validPixel p) (l : List Char)
    (hlen : l.length = 6) (hl : ∀ c ∈ l, c ∈ hexChars) :
    hex_to_rgb (rgb_to_hex p) = some p
    ∧ ∃ q : ℤ × ℤ × ℤ, hex_to_rgb ('#' :: l) = some q ∧ rgb_to_hex q = '#' :: l := by
  constructor
  · obtain ⟨a0, a255, b0, b255, c0, c255⟩ := hp
    rw [rgb_to_hex_valid p ⟨a0, a255, b0, b255, c0, c255⟩]
    have e1 : (hexChar (p.1.toNat / 16) == '#') = false := hexChar_ne_hash _ (by omega)
    rw [hex_to_rgb_of_six_digits _ (p.1.toNat / 16) (p.1.toNat % 16)
      (p.2.1.toNat / 16) (p.2.1.toNat % 16) (p.2.2.toNat / 16) (p.2.2.toNat % 16) []
      (by omega) (by omega) (by omega) (by omega) (by omega) (by omega)
      (by simp [List.dropWhile_cons, e1])]
    have ea : 16 * ((p.1.toNat / 16 : ℕ) : ℤ) + ((p.1.toNat % 16 : ℕ) : ℤ) = p.1 := by
      push_cast
      omega
    have eb : 16 * ((p.2.1.toNat / 16 : ℕ) : ℤ) + ((p.2.1.toNat % 16 : ℕ) : ℤ) = p.2.1 := by
      push_cast
      omega
    have ec : 16 * ((p.2.2.toNat / 16 : ℕ) : ℤ) + ((p.2.2.toNat % 16 : ℕ) : ℤ) = p.2.2 := by
      push_cast
      omega
    rw [ea, eb, ec]
  · obtain ⟨c1, c2, c3, c4, c5, c6, rfl⟩ :
        ∃ a b c d e f, l = [a, b, c, d, e, f] := by
      rcases l with _ | ⟨c1, _ | ⟨c2, _ | ⟨c3, _ | ⟨c4, _ | ⟨c5, _ | ⟨c6, _ | ⟨c7, t⟩⟩⟩⟩⟩⟩⟩ <;>
        first
          | exact ⟨c1, c2, c3, c4, c5, c6, rfl⟩
          | (exfalso; simp [List.length_cons] at hlen)
    have s1 := lower_hex_char_spec c1 (hl c1 (by simp))
    have s2 := lower_hex_char_spec c2 (hl c2 (by simp))
    have s3 := lower_hex_char_spec c3 (hl c3 (by simp))
    have s4 := lower_hex_char_spec c4 (hl c4 (by simp))
    have s5 := lower_hex_char_spec c5 (hl c5 (by simp))
    have s6 := lower_hex_char_spec c6 (hl c6 (by simp))
    refine ⟨(16 * ((hexVal c1).getD 0 : ℤ) + (hexVal c2).getD 0,
        16 * ((hexVal c3).getD 0 : ℤ) + (hexVal c4).getD 0,
        16 * ((hexVal c5).getD 0 : ℤ) + (hexVal c6).getD 0), ?_, ?_⟩
    · refine hex_to_rgb_of_six_digits _ _ _ _ _ _ _ [] s1.2.1 s2.2.1 s3.2.1 s4.2.1
        s5.2.1 s6.2.1 ?_
      have hc1 : (c1 == '#') = false := s1.2.2 ▸ hexChar_ne_hash _ s1.2.1
      rw [s1.2.2, s2.2.2, s3.2.2, s4.2.2, s5.2.2, s6.2.2]
      simp [List.dropWhile_cons, hc1]
    · have hv : validPixel (16 * ((hexVal c1).getD 0 : ℤ) + (hexVal c2).getD 0,
          16 * ((hexVal c3).getD 0 : ℤ) + (hexVal c4).getD 0,
          16 * ((hexVal c5).getD 0 : ℤ) + (hexVal c6).getD 0) := by
        refine ⟨?_, ?_, ?_, ?_, ?_, ?_⟩ <;>
          · have w1 := s1.2.1
            have w2 := s2.2.1
            have w3 := s3.2.1
            have w4 := s4.2.1
            have w5 := s5.2.1
            have w6 := s6.2.1
            push_cast
            omega
      rw [rgb_to_hex_valid _ hv]
      have t1 : (16 * ((hexVal c1).getD 0 : ℤ) + (hexVal c2).getD 0).toNat
          = 16 * (hexVal c1).getD 0 + (hexVal c2).getD 0 := by omega
      have t2 : (16 * ((hexVal c3).getD 0 : ℤ) + (hexVal c4).getD 0).toNat
          = 16 * (hexVal c3).getD 0 + (hexVal c4).getD 0 := by omega
      have t3 : (16 * ((hexVal c5).getD 0 : ℤ) + (hexVal c6).getD 0).toNat
          = 16 * (hexVal c5).getD 0 + (hexVal c6).getD 0 := by omega
    
      simp only [t1, t2, t3]
      have u1 : (16 * (hexVal c1).getD 0 + (hexVal c2).getD 0) / 16 = (hexVal c1).getD 0 := by
        have := s2.2.1
        omega
      have u2 : (16 * (hexVal c1).getD 0 + (hexVal c2).getD 0) % 16 = (hexVal c2).getD 0 := by
        have := s2.2.1
        omega
      have u3 : (16 * (hexVal c3).getD 0 + (hexVal c4).getD 0) / 16 = (hexVal c3).getD 0 := by
        have := s4.2.1
        omega
      have u4 : (16 * (hexVal c3).getD 0 + (hexVal c4).getD 0) % 16 = (hexVal c4).getD 0 := by
        have := s4.2.1
        omega
      have u5 : (16 * (hexVal c5).getD 0 + (hexVal c6).getD 0) / 16 = (hexVal c5).getD 0 := by
        have := s6.2.1
        omega
      have u6 : (16 * (hexVal c5).getD 0 + (hexVal c6).getD 0) % 16 = (hexVal c6).getD 0 := by
        have := s6.2.1
        omega
      rw [u1, u2, u3, u4, u5, u6, s1.2.2, s2.2.2, s3.2.2, s4.2.2, s5.2.2, s6.2.2]

/-- Witness for C1 at the pixel (171, 205, 239) and the string `#1a2b3c`. -/
theorem C1_hex_round_trip_witness :
    hex_to_rgb (rgb_to_hex (171, 205, 239)) = some (171, 205, 239)
    ∧ ∃ q : ℤ × ℤ × ℤ,
        hex_to_rgb ('#' :: ['1', 'a', '2', 'b', '3', 'c']) = some q
        ∧ rgb_to_hex q = '#' :: ['1', 'a', '2', 'b', '3', 'c'] :=
  C1_hex_round_trip (171, 205, 239) (by decide) ['1', 'a', '2', 'b', '3', 'c']
    (by decide) (by decide)

/-- Counterexample for C2: the string `#1234567`, whose content after the
`#` is seven hex digits (not exactly six), is not rejected: `hex_to_rgb`
returns the pixel (18, 52, 86) parsed from the first six digits, silently
ignoring the seventh. -/
theorem C2_counterexample :
    hex_to_rgb ('#' :: ['1', '2', '3', '4', '5', '6', '7']) = some (18, 52, 86)
    ∧ ['1', '2', '3', '4', '5', '6', '7'].length ≠ 6 := by
  constructor
  · decide
  · decide

/-- C2 amended: `hex_to_rgb` accepts every string whose `#`-stripped
content begins with six hex digit characters, whatever follows them, and
raises (modelled by `none`) whenever at most four characters remain after
stripping — so acceptance is not equivalent to the content being exactly
six hex digits.  (Beyond the scope of this statement the parser also
accepts further malformed inputs such as five-digit strings, uppercase
digits, or embedded signs and spaces, because each two-character slice is
parsed independently by `int(_, 16)`.) -/
theorem C2_amended (l1 l2 : List Char)
    (hhex : ∀ c ∈ (l1.dropWhile (· == '#')).take 6, c ∈ hexChars)
    (hlen6 : 6 ≤ (l1.dropWhile (· == '#')).length)
    (hlen4 : (l2.dropWhile (· == '#')).length ≤ 4) :
    (∃ p : ℤ × ℤ × ℤ, hex_to_rgb l1 = some p) ∧ hex_to_rgb l2 = none := by
  constructor
  · obtain ⟨c1, c2, c3, c4, c5, c6, rest, hs⟩ :
        ∃ a b c d e f t, l1.dropWhile (· == '#') = a :: b :: c :: d :: e :: f :: t := by
      rcases hsplit : l1.dropWhile (· == '#') with
        _ | ⟨c1, _ | ⟨c2, _ | ⟨c3, _ | ⟨c4, _ | ⟨c5, _ | ⟨c6, t⟩⟩⟩⟩⟩⟩ <;>
        first
          | exact ⟨c1, c2, c3, c4, c5, c6, t, rfl⟩
          | (exfalso; rw [hsplit] at hlen6; simp [List.length_cons] at hlen6)
    rw [hs] at hhex
    have s1 := lower_hex_char_spec c1 (hhex c1 (by simp))
    have s2 := lower_hex_char_spec c2 (hhex c2 (by simp))
    have s3 := lower_hex_char_spec c3 (hhex c3 (by simp))
    have s4 := lower_hex_char_spec c4 (hhex c4 (by simp))
    have s5 := lower_hex_char_spec c5 (hhex c5 (by simp))
    have s6 := lower_hex_char_spec c6 (hhex c6 (by simp))
    refine ⟨_, hex_to_rgb_of_six_digits l1 _ _ _ _ _ _ rest s1.2.1 s2.2.1 s3.2.1
      s4.2.1 s5.2.1 s6.2.1 ?_⟩
    rw [hs, s1.2.2, s2.2.2, s3.2.2, s4.2.2, s5.2.2, s6.2.2]
  · have hdrop : (l2.dropWhile (· == '#')).drop 4 = [] :=
      List.drop_eq_nil_of_le hlen4
    have hslice : pySlice2 (l2.dropWhile (· == '#')) 4 = [] := by
      unfold pySlice2
      rw [hdrop]
      rfl
    have hnone : pyIntHex (pySlice2 (l2.dropWhile (· == '#')) 4) = none := by
      rw [hslice]
      rfl
    unfold hex_to_rgb
    dsimp only
    rw [hnone]
    cases pyIntHex (pySlice2 (l2.dropWhile (· == '#')) 0) <;>
      cases pyIntHex (pySlice2 (l2.dropWhile (· == '#')) 2) <;> rfl

/-- Witness for C2 amended: `#1234567` (seven digits) is accepted,
`#abc` (three characters) is rejected. -/
theorem C2_amended_witness :
    (∃ p : ℤ × ℤ × ℤ, hex_to_rgb ('#' :: ['1', '2', '3', '4', '5', '6', '7']) = some p)
    ∧ hex_to_rgb ('#' :: ['a', 'b', 'c']) = none :=
  C2_amended ('#' :: ['1', '2', '3', '4', '5', '6', '7']) ('#' :: ['a', 'b', 'c'])
    (by decide) (by decide) (by decide)

/-! ## Complementary-color lemmas -/

/-- Fractional part of a value already in `[0, 1)`. -/
theorem fract_self_of (x : ℚ) (h0 : 0 ≤ x) (h1 : x < 1) : Int.fract x = x :=
  Int.fract_eq_self.mpr ⟨h0, h1⟩

/-- Fractional part of a value in `[-1, 0)`. -/
theorem fract_add_one_of (x : ℚ) (h0 : (-1 : ℚ) ≤ x) (h1 : x < 0) :
    Int.fract x = x + 1 := by
  have h2 : Int.fract (x + 1) = x + 1 := fract_self_of _ (by linarith) (by linarith)
  calc Int.fract x = Int.fract (x + 1) := by
        rw [show x + 1 = x + ((1 : ℤ) : ℚ) by push_cast; ring, Int.fract_add_int]
    _ = x + 1 := h2

/-- Fractional part of a value in `[1, 2)`. -/
theorem fract_sub_one_of (x : ℚ) (h0 : 1 ≤ x) (h1 : x < 2) :
    Int.fract x = x - 1 := by
  have h2 : Int.fract (x - 1) = x - 1 := fract_self_of _ (by linarith) (by linarith)
  calc Int.fract x = Int.fract (x - 1) := by
        rw [show x - 1 = x - ((1 : ℤ) : ℚ) by push_cast; ring, Int.fract_sub_int]
    _ = x - 1 := h2

/-- The helper `colorsys._v` only depends on the fractional part of its hue. -/
theorem hls_v_congr (m1 m2 t t' : ℚ) (h : Int.fract t = Int.fract t') :
    hls_v m1 m2 t = hls_v m1 m2 t' := by
  unfold hls_v
  rw [h]

/-- The helper `colorsys._v` on the first hue segment. -/
theorem hls_v_seg1 (m1 m2 : ℚ) {t : ℚ} (h0 : 0 ≤ t) (h1 : t < 1 / 6) :
    hls_v m1 m2 t = m1 + (m2 - m1) * t * 6 := by
  unfold hls_v
  dsimp only
  rw [fract_self_of _ h0 (by linarith), if_pos h1]

/-- The helper `colorsys._v` on the second hue segment. -/
theorem hls_v_seg2 (m1 m2 : ℚ) {t : ℚ} (h0 : 1 / 6 ≤ t) (h1 : t < 1 / 2) :
    hls_v m1 m2 t = m2 := by
  unfold hls_v
  dsimp only
  rw [fract_self_of _ (by linarith) (by linarith), if_neg (not_lt.mpr h0), if_pos h1]

/-- The helper `colorsys._v` on the third hue segment. -/
theorem hls_v_seg3 (m1 m2 : ℚ) {t : ℚ} (h0 : 1 / 2 ≤ t) (h1 : t < 2 / 3) :
    hls_v m1 m2 t = m1 + (m2 - m1) * (2 / 3 - t) * 6 := by
  unfold hls_v
  dsimp only
  rw [fract_self_of _ (by linarith) (by linarith), if_neg (by linarith : ¬ t < 1 / 6),
    if_neg (not_lt.mpr h0), if_pos h1]

/-- The helper `colorsys._v` on the fourth hue segment. -/
theorem hls_v_seg4 (m1 m2 : ℚ) {t : ℚ} (h0 : 2 / 3 ≤ t) (h1 : t < 1) :
    hls_v m1 m2 t = m1 := by
  unfold hls_v
  dsimp only
  rw [fract_self_of _ (by linarith) (by linarith), if_neg (by linarith : ¬ t < 1 / 6),
    if_neg (by linarith : ¬ t < 1 / 2), if_neg (not_lt.mpr h0)]

/-- In the chromatic case the two auxiliary values of `colorsys.hls_to_rgb`
collapse to the extremes: `m2 = M` and `m1 = m`, in both lightness
branches. -/
theorem hls_to_rgb_chromatic (M m h' : ℚ) (h0 : 0 ≤ m) (hmM : m < M) (hM1 : M ≤ 1) :
    hls_to_rgb h' ((M + m) / 2)
        (if (M + m) / 2 ≤ 1 / 2 then (M - m) / (M + m) else (M - m) / (2 - (M + m)))
      = (hls_v m M (h' + 1 / 3), hls_v m M h', hls_v m M (h' - 1 / 3)) := by
  have hMpos : 0 < M + m := by linarith
  have hdiff : M - m ≠ 0 := by linarith
  by_cases hl : (M + m) / 2 ≤ 1 / 2
  · rw [if_pos hl]
    unfold hls_to_rgb
    have hs : (M - m) / (M + m) ≠ 0 := div_ne_zero hdiff (by linarith)
    rw [if_neg hs]
    dsimp only
    rw [if_pos hl]
    have e2 : (M + m) / 2 * (1 + (M - m) / (M + m)) = M := by
      field_simp
      ring
    rw [e2]
    have e1 : 2 * ((M + m) / 2) - M = m := by ring
    rw [e1]
  · rw [if_neg hl]
    unfold hls_to_rgb
    have h2s : 0 < 2 - (M + m) := by
      have : 1 / 2 < (M + m) / 2 := lt_of_not_le hl
      have hmlt : m < 1 := lt_of_lt_of_le hmM hM1
      linarith
    have hs : (M - m) / (2 - (M + m)) ≠ 0 := div_ne_zero hdiff (by linarith)
    rw [if_neg hs]
    dsimp only
    rw [if_neg hl]
    have e2 : (M + m) / 2 + (M - m) / (2 - (M + m))
        - (M + m) / 2 * ((M - m) / (2 - (M + m))) = M := by
      field_simp
      ring
    rw [e2]
    have e1 : 2 * ((M + m) / 2) - M = m := by ring
    rw [e1]

set_option maxHeartbeats 1000000 in
/-- The heart of the complementary-color analysis: in exact arithmetic, the
0.5-turn hue rotation through HLS space is the reflection
`x := maxc + minc - x` of the three channels.  Proved by following every
branch of `colorsys.rgb_to_hls`, the hue wrap-around, and the three
segment evaluations of `colorsys._v`. -/
theorem comp_reflect (u v w : ℚ) (hu0 : 0 ≤ u) (hu1 : u ≤ 1) (hv0 : 0 ≤ v) (hv1 : v ≤ 1)
    (hw0 : 0 ≤ w) (hw1 : w ≤ 1) :
    hls_to_rgb (Int.fract ((rgb_to_hls u v w).1 + 1 / 2)) (rgb_to_hls u v w).2.1
        (rgb_to_hls u v w).2.2
      = (max u (max v w) + min u (min v w) - u,
         max u (max v w) + min u (min v w) - v,
         max u (max v w) + min u (min v w) - w) := by
  have hmu : min u (min v w) ≤ u := min_le_left _ _
  have hmv : min u (min v w) ≤ v := (min_le_right u _).trans (min_le_left v w)
  have hmw : min u (min v w) ≤ w := (min_le_right u _).trans (min_le_right v w)
  have huM : u ≤ max u (max v w) := le_max_left _ _
  have hvM : v ≤ max u (max v w) := (le_max_left v w).trans (le_max_right u _)
  have hwM : w ≤ max u (max v w) := (le_max_right v w).trans (le_max_right u _)
  have hm0 : 0 ≤ min u (min v w) := le_min hu0 (le_min hv0 hw0)
  have hM1 : max u (max v w) ≤ 1 := max_le hu1 (max_le hv1 hw1)
  by_cases hch : min u (min v w) = max u (max v w)
  · have huv : u = v := le_antisymm (huM.trans (hch ▸ hmv)) (hvM.trans (hch ▸ hmu))
    have huw : u = w := le_antisymm (huM.trans (hch ▸ hmw)) (hwM.trans (hch ▸ hmu))
    subst huv
    subst huw
    have h000 : rgb_to_hls u u u = (0, u, 0) := by
      unfold rgb_to_hls
      dsimp only
      rw [if_pos (by simp)]
      simp only [max_self, min_self, Prod.mk.injEq]
      exact ⟨trivial, by ring, trivial⟩
    rw [h000]
    dsimp only
    unfold hls_to_rgb
    rw [if_pos rfl]
    simp only [max_self, min_self, Prod.mk.injEq]
    exact ⟨by ring, by ring, by ring⟩
  · have hlt : min u (min v w) < max u (max v w) := lt_of_le_of_ne (hmu.trans huM) hch
    unfold rgb_to_hls
    dsimp only
    rw [if_neg hch]
    dsimp only
    rw [hls_to_rgb_chromatic _ _ _ hm0 hlt hM1]
    by_cases hru : u = max u (max v w)
    · rw [if_pos hru, ← hru]
      rw [← hru] at hlt hvM hwM
      rcases le_or_lt w v with hwv | hvw
      · -- u is max, w is min
        have hmeq : min u (min v w) = w := by
          rw [min_eq_right hwv]
          exact min_eq_right (hwv.trans hvM)
        rw [hmeq]
        rw [hmeq] at hlt
        have hne : u - w ≠ 0 := by linarith
        rw [div_sub_div_same, show u - w - (u - v) = v - w by ring]
        have hq0 : 0 ≤ (v - w) / (u - w) := div_nonneg (by linarith) (by linarith)
        have hq1 : (v - w) / (u - w) ≤ 1 := by
          rw [div_le_one (by linarith)]
          linarith
        rw [fract_self_of ((v - w) / (u - w) / 6) (by linarith) (by linarith)]
        rcases eq_or_lt_of_le hq1 with hq | hq
        · have hvequ : v = u := by
            rw [div_eq_one_iff_eq hne] at hq
            linarith
          rw [hq]
          rw [fract_self_of ((1 : ℚ) / 6 + 1 / 2) (by norm_num) (by norm_num)]
          simp only [Prod.mk.injEq]
          refine ⟨?_, ?_, ?_⟩
          · rw [show (1 : ℚ) / 6 + 1 / 2 + 1 / 3 = 1 by norm_num,
              hls_v_congr w u 1 0 (by rw [Int.fract_one, Int.fract_zero]),
              hls_v_seg1 w u le_rfl (by norm_num)]
            ring
          · rw [show (1 : ℚ) / 6 + 1 / 2 = 2 / 3 by norm_num,
              hls_v_seg4 w u le_rfl (by norm_num)]
            rw [hvequ]
            ring
          · rw [show (1 : ℚ) / 6 + 1 / 2 - 1 / 3 = 1 / 3 by norm_num,
              hls_v_seg2 w u (by norm_num) (by norm_num)]
            ring
        · rw [fract_self_of ((v - w) / (u - w) / 6 + 1 / 2) (by linarith) (by linarith)]
          simp only [Prod.mk.injEq]
          refine ⟨?_, ?_, ?_⟩
          · rw [show (v - w) / (u - w) / 6 + 1 / 2 + 1 / 3
                = (v - w) / (u - w) / 6 + 5 / 6 by ring,
              hls_v_seg4 w u (by linarith) (by linarith)]
            ring
          · rw [hls_v_seg3 w u (by linarith) (by linarith)]
            field_simp
            ring
          · rw [show (v - w) / (u - w) / 6 + 1 / 2 - 1 / 3
                = (v - w) / (u - w) / 6 + 1 / 6 by ring,
              hls_v_seg2 w u (by linarith) (by linarith)]
            ring
      · -- u is max, v is min
        have hmeq : min u (min v w) = v := by
          rw [min_eq_left hvw.le]
          exact min_eq_right (hvw.le.trans hwM)
        rw [hmeq]
        rw [hmeq] at hlt
        have hne : u - v ≠ 0 := by linarith
        rw [div_sub_div_same, show u - w - (u - v) = v - w by ring]
        have hqlb : (-1 : ℚ) ≤ (v - w) / (u - v) := by
          rw [le_div_iff₀ (by linarith : (0 : ℚ) < u - v)]
          linarith
        have hqub : (v - w) / (u - v) < 0 :=
          div_neg_of_neg_of_pos (by linarith) (by linarith)
        rw [fract_add_one_of ((v - w) / (u - v) / 6) (by linarith) (by linarith)]
        rw [fract_sub_one_of ((v - w) / (u - v) / 6 + 1 + 1 / 2) (by linarith) (by linarith)]
        simp only [Prod.mk.injEq]
        refine ⟨?_, ?_, ?_⟩
        · rw [show (v - w) / (u - v) / 6 + 1 + 1 / 2 - 1 + 1 / 3
              = (v - w) / (u - v) / 6 + 5 / 6 by ring,
            hls_v_seg4 v u (by linarith) (by linarith)]
          ring
        · rw [show (v - w) / (u - v) / 6 + 1 + 1 / 2 - 1
              = (v - w) / (u - v) / 6 + 1 / 2 by ring,
            hls_v_seg2 v u (by linarith) (by linarith)]
          ring
        · rw [show (v - w) / (u - v) / 6 + 1 + 1 / 2 - 1 - 1 / 3
              = (v - w) / (u - v) / 6 + 1 / 6 by ring,
            hls_v_seg1 v u (by linarith) (by linarith)]
          field_simp
          ring
    · by_cases hrv : v = max u (max v w)
      · rw [if_neg hru, if_pos hrv, ← hrv]
        rw [← hrv] at hlt huM hwM hru
        have hulv : u < v := lt_of_le_of_ne huM hru
        have hminw : min v w = w := min_eq_right hwM
        rw [hminw]
        rw [hminw] at hlt
        rcases lt_or_le w u with hwu | huw
        · -- v is max, w is min
          have hmeq : min u w = w := min_eq_right hwu.le
          rw [hmeq]
          have hne : v - w ≠ 0 := by linarith
          rw [div_self hne, show (2 : ℚ) + (v - u) / (v - w) - 1
              = 1 + (v - u) / (v - w) by ring]
          have hq0 : 0 < (v - u) / (v - w) := div_pos (by linarith) (by linarith)
          have hq1 : (v - u) / (v - w) < 1 := by
            rw [div_lt_one (by linarith)]
            linarith
          rw [fract_self_of ((1 + (v - u) / (v - w)) / 6) (by linarith) (by linarith)]
          rw [fract_self_of ((1 + (v - u) / (v - w)) / 6 + 1 / 2) (by linarith) (by linarith)]
          simp only [Prod.mk.injEq]
          refine ⟨?_, ?_, ?_⟩
          · rw [show (1 + (v - u) / (v - w)) / 6 + 1 / 2 + 1 / 3
                = (1 + (v - u) / (v - w)) / 6 + 5 / 6 by ring]
            rw [hls_v_congr w v ((1 + (v - u) / (v - w)) / 6 + 5 / 6)
                ((1 + (v - u) / (v - w)) / 6 - 1 / 6)
                (by rw [fract_sub_one_of _ (by linarith) (by linarith),
                    fract_self_of _ (by linarith) (by linarith)]; ring)]
            rw [hls_v_seg1 w v (by linarith) (by linarith)]
            field_simp
            ring
          · rw [hls_v_seg4 w v (by linarith) (by linarith)]
            ring
          · rw [show (1 + (v - u) / (v - w)) / 6 + 1 / 2 - 1 / 3
                = (1 + (v - u) / (v - w)) / 6 + 1 / 6 by ring,
              hls_v_seg2 w v (by linarith) (by linarith)]
            ring
        · -- v is max, u is min
          have hmeq : min u w = u := min_eq_left huw
          rw [hmeq]
          have hne : v - u ≠ 0 := by linarith
          rw [div_self hne, show (2 : ℚ) + 1 - (v - w) / (v - u)
              = 3 - (v - w) / (v - u) by ring]
          have hq0 : 0 ≤ (v - w) / (v - u) := div_nonneg (by linarith) (by linarith)
          have hq1 : (v - w) / (v - u) ≤ 1 := by
            rw [div_le_one (by linarith)]
            linarith
          rcases eq_or_lt_of_le hq0 with hq | hq
          · have hwv : w = v := by
              have h2 := hq.symm
              rw [div_eq_zero_iff] at h2
              rcases h2 with h2 | h2
              · linarith
              · exact absurd h2 hne
            rw [← hq]
            rw [fract_self_of ((3 - (0 : ℚ)) / 6) (by norm_num) (by norm_num)]
            rw [show ((3 : ℚ) - 0) / 6 + 1 / 2 = 1 by norm_num]
            rw [show Int.fract (1 : ℚ) = 0 from Int.fract_one]
            simp only [Prod.mk.injEq]
            refine ⟨?_, ?_, ?_⟩
            · rw [show (0 : ℚ) + 1 / 3 = 1 / 3 by norm_num,
                hls_v_seg2 u v (by norm_num) (by norm_num)]
              ring
            · rw [hls_v_seg1 u v le_rfl (by norm_num)]
              ring
            · rw [show (0 : ℚ) - 1 / 3 = -(1 / 3) by norm_num]
              rw [hls_v_congr u v (-(1 / 3)) (2 / 3)
                  (by rw [fract_add_one_of _ (by norm_num) (by norm_num),
                      fract_self_of _ (by norm_num) (by norm_num)]; norm_num)]
              rw [hls_v_seg4 u v (by norm_num) (by norm_num)]
              rw [hwv]
              ring
          · rw [fract_self_of ((3 - (v - w) / (v - u)) / 6) (by linarith) (by linarith)]
            rw [fract_self_of ((3 - (v - w) / (v - u)) / 6 + 1 / 2) (by linarith) (by linarith)]
            simp only [Prod.mk.injEq]
            refine ⟨?_, ?_, ?_⟩
            · rw [show (3 - (v - w) / (v - u)) / 6 + 1 / 2 + 1 / 3
                  = (3 - (v - w) / (v - u)) / 6 + 5 / 6 by ring]
              rw [hls_v_congr u v ((3 - (v - w) / (v - u)) / 6 + 5 / 6)
                  ((3 - (v - w) / (v - u)) / 6 - 1 / 6)
                  (by rw [fract_sub_one_of _ (by linarith) (by linarith),
                      fract_self_of _ (by linarith) (by linarith)]; ring)]
              rw [hls_v_seg2 u v (by linarith) (by linarith)]
              ring
            · rw [hls_v_seg4 u v (by linarith) (by linarith)]
              ring
            · rw [show (3 - (v - w) / (v - u)) / 6 + 1 / 2 - 1 / 3
                  = (3 - (v - w) / (v - u)) / 6 + 1 / 6 by ring,
                hls_v_seg3 u v (by linarith) (by linarith)]
              field_simp
              ring
      · have hrw : w = max u (max v w) := by
          rcases max_choice u (max v w) with h | h
          · exact absurd h.symm hru
          · rcases max_choice v w with h2 | h2
            · exact absurd (h.trans h2).symm hrv
            · exact (h.trans h2).symm
        rw [if_neg hru, if_neg hrv, ← hrw]
        rw [← hrw] at hlt huM hvM hru hrv
        have hulw : u < w := lt_of_le_of_ne huM hru
        have hvlw : v < w := lt_of_le_of_ne hvM hrv
        have hminvw : min v w = v := min_eq_left hvM
        rw [hminvw]
        rw [hminvw] at hlt
        rcases lt_or_le u v with huv | hvu
        · -- w is max, u is min
          have hmeq : min u v = u := min_eq_left huv.le
          rw [hmeq]
          have hne : w - u ≠ 0 := by linarith
          rw [div_self hne, show (4 : ℚ) + (w - v) / (w - u) - 1
              = 3 + (w - v) / (w - u) by ring]
          have hq0 : 0 < (w - v) / (w - u) := div_pos (by linarith) (by linarith)
          have hq1 : (w - v) / (w - u) < 1 := by
            rw [div_lt_one (by linarith)]
            linarith
          rw [fract_self_of ((3 + (w - v) / (w - u)) / 6) (by linarith) (by linarith)]
          rw [fract_sub_one_of ((3 + (w - v) / (w - u)) / 6 + 1 / 2) (by linarith) (by linarith)]
          simp only [Prod.mk.injEq]
          refine ⟨?_, ?_, ?_⟩
          · rw [show (3 + (w - v) / (w - u)) / 6 + 1 / 2 - 1 + 1 / 3
                = (3 + (w - v) / (w - u)) / 6 - 1 / 6 by ring,
              hls_v_seg2 u w (by linarith) (by linarith)]
            ring
          · rw [show (3 + (w - v) / (w - u)) / 6 + 1 / 2 - 1
                = (3 + (w - v) / (w - u)) / 6 - 1 / 2 by ring,
              hls_v_seg1 u w (by linarith) (by linarith)]
            field_simp
            ring
          · rw [show (3 + (w - v) / (w - u)) / 6 + 1 / 2 - 1 - 1 / 3
                = (3 + (w - v) / (w - u)) / 6 - 5 / 6 by ring]
            rw [hls_v_congr u w ((3 + (w - v) / (w - u)) / 6 - 5 / 6)
                ((3 + (w - v) / (w - u)) / 6 + 1 / 6)
                (by rw [fract_add_one_of _ (by linarith) (by linarith),
                    fract_self_of _ (by linarith) (by linarith)]; ring)]
            rw [hls_v_seg4 u w (by linarith) (by linarith)]
            ring
        · -- w is max, v is min
          have hmeq : min u v = v := min_eq_right hvu
          rw [hmeq]
          have hne : w - v ≠ 0 := by linarith
          rw [div_self hne, show (4 : ℚ) + 1 - (w - u) / (w - v)
              = 5 - (w - u) / (w - v) by ring]
          have hq0 : 0 < (w - u) / (w - v) := div_pos (by linarith) (by linarith)
          have hq1 : (w - u) / (w - v) ≤ 1 := by
            rw [div_le_one (by linarith)]
            linarith
          rw [fract_self_of ((5 - (w - u) / (w - v)) / 6) (by linarith) (by linarith)]
          rw [fract_sub_one_of ((5 - (w - u) / (w - v)) / 6 + 1 / 2) (by linarith) (by linarith)]
          simp only [Prod.mk.injEq]
          refine ⟨?_, ?_, ?_⟩
          · rw [show (5 - (w - u) / (w - v)) / 6 + 1 / 2 - 1 + 1 / 3
                = (5 - (w - u) / (w - v)) / 6 - 1 / 6 by ring,
              hls_v_seg3 v w (by linarith) (by linarith)]
            field_simp
            ring
          · rw [show (5 - (w - u) / (w - v)) / 6 + 1 / 2 - 1
                = (5 - (w - u) / (w - v)) / 6 - 1 / 2 by ring,
              hls_v_seg2 v w (by linarith) (by linarith)]
            ring
          · rw [show (5 - (w - u) / (w - v)) / 6 + 1 / 2 - 1 - 1 / 3
                = (5 - (w - u) / (w - v)) / 6 - 5 / 6 by ring]
            rw [hls_v_congr v w ((5 - (w - u) / (w - v)) / 6 - 5 / 6)
                ((5 - (w - u) / (w - v)) / 6 + 1 / 6)
                (by rw [fract_add_one_of _ (by linarith) (by linarith),
                    fract_self_of _ (by linarith) (by linarith)]; ring)]
            rw [hls_v_seg4 v w (by linarith) (by linarith)]
            ring

/-- The integer pixel produced by `get_complementary_color` is exactly the
channel reflection around `max + min`; in particular the `int(x*255)`
truncation is exact, because the reflected values are integer multiples of
`1/255`. -/
theorem comp_pixel_eq (p : ℤ × ℤ × ℤ) (hp : validPixel p) :
    comp_pixel p
      = (max p.1 (max p.2.1 p.2.2) + min p.1 (min p.2.1 p.2.2) - p.1,
         max p.1 (max p.2.1 p.2.2) + min p.1 (min p.2.1 p.2.2) - p.2.1,
         max p.1 (max p.2.1 p.2.2) + min p.1 (min p.2.1 p.2.2) - p.2.2) := by
  obtain ⟨a0, a255, b0, b255, c0, c255⟩ := hp
  unfold comp_pixel
  dsimp only
  have hb : ∀ x : ℤ, 0 ≤ x → x ≤ 255 → (0 : ℚ) ≤ (x : ℚ) / 255 ∧ (x : ℚ) / 255 ≤ 1 := by
    intro x h1 h2
    constructor
    · positivity
    · rw [div_le_one (by norm_num)]
      exact_mod_cast h2
  obtain ⟨a0', a1'⟩ := hb _ a0 a255
  obtain ⟨b0', b1'⟩ := hb _ b0 b255
  obtain ⟨c0', c1'⟩ := hb _ c0 c255
  rw [comp_reflect _ _ _ a0' a1' b0' b1' c0' c1']
  dsimp only
  have hM : max ((p.1 : ℚ) / 255) (max ((p.2.1 : ℚ) / 255) ((p.2.2 : ℚ) / 255))
      = ((max p.1 (max p.2.1 p.2.2) : ℤ) : ℚ) / 255 := by
    push_cast
    rw [max_div_div_right (by norm_num : (0 : ℚ) ≤ 255),
      max_div_div_right (by norm_num : (0 : ℚ) ≤ 255)]
  have hm : min ((p.1 : ℚ) / 255) (min ((p.2.1 : ℚ) / 255) ((p.2.2 : ℚ) / 255))
      = ((min p.1 (min p.2.1 p.2.2) : ℤ) : ℚ) / 255 := by
    push_cast
    rw [min_div_div_right (by norm_num : (0 : ℚ) ≤ 255),
      min_div_div_right (by norm_num : (0 : ℚ) ≤ 255)]
  rw [hM, hm]
  have e1 : (((max p.1 (max p.2.1 p.2.2) : ℤ) : ℚ) / 255
      + ((min p.1 (min p.2.1 p.2.2) : ℤ) : ℚ) / 255 - (p.1 : ℚ) / 255) * 255
      = ((max p.1 (max p.2.1 p.2.2) + min p.1 (min p.2.1 p.2.2) - p.1 : ℤ) : ℚ) := by
    push_cast
    ring
  have e2 : (((max p.1 (max p.2.1 p.2.2) : ℤ) : ℚ) / 255
      + ((min p.1 (min p.2.1 p.2.2) : ℤ) : ℚ) / 255 - (p.2.1 : ℚ) / 255) * 255
      = ((max p.1 (max p.2.1 p.2.2) + min p.1 (min p.2.1 p.2.2) - p.2.1 : ℤ) : ℚ) := by
    push_cast
    ring
  have e3 : (((max p.1 (max p.2.1 p.2.2) : ℤ) : ℚ) / 255
      + ((min p.1 (min p.2.1 p.2.2) : ℤ) : ℚ) / 255 - (p.2.2 : ℚ) / 255) * 255
      = ((max p.1 (max p.2.1 p.2.2) + min p.1 (min p.2.1 p.2.2) - p.2.2 : ℤ) : ℚ) := by
    push_cast
    ring
  rw [e1, e2, e3, pyInt_intCast, pyInt_intCast, pyInt_intCast]

set_option maxHeartbeats 800000 in
/-- C8: `get_complementary_color` is precisely a conversion to HLS, a hue
rotation by 0.5 turns mod 1.0, and a conversion back with the lightness and
saturation passed through unchanged (the first conjunct is that structure,
definitional in this embedding); applying the complementary map twice
returns the original pixel exactly, so the hue of the double complement
equals the original hue exactly (stronger than the claimed
"within floating rounding"). -/
theorem C8_complementary_involution (p : ℤ × ℤ × ℤ) (hp : validPixel p) :
    get_complementary_color p = rgb_to_hex (comp_pixel p)
    ∧ comp_pixel (comp_pixel p) = p
    ∧ (hlsOf (comp_pixel (comp_pixel p))).1 = (hlsOf p).1 := by
  obtain ⟨a, b, c⟩ := p
  obtain ⟨a0, a255, b0, b255, c0, c255⟩ := hp
  have h1 := comp_pixel_eq (a, b, c) ⟨a0, a255, b0, b255, c0, c255⟩
  dsimp only at h1
  have hMu : a ≤ max a (max b c) := le_max_left _ _
  have hMv : b ≤ max a (max b c) := (le_max_left _ c).trans (le_max_right a _)
  have hMw : c ≤ max a (max b c) := (le_max_right b _).trans (le_max_right a _)
  have hmu : min a (min b c) ≤ a := min_le_left _ _
  have hmv : min a (min b c) ≤ b := (min_le_right a _).trans (min_le_left b _)
  have hmw : min a (min b c) ≤ c := (min_le_right a _).trans (min_le_right b _)
  have hM255 : max a (max b c) ≤ 255 := max_le a255 (max_le b255 c255)
  have hm0 : 0 ≤ min a (min b c) := le_min a0 (le_min b0 c0)
  have hv2 : validPixel (comp_pixel (a, b, c)) := by
    rw [h1]
    refine ⟨?_, ?_, ?_, ?_, ?_, ?_⟩ <;> dsimp only <;> omega
  have h2 := comp_pixel_eq (comp_pixel (a, b, c)) hv2
  have hinv : comp_pixel (comp_pixel (a, b, c)) = (a, b, c) := by
    rw [h2, h1]
    dsimp only
    simp only [max_sub_sub_left, min_sub_sub_left, Prod.mk.injEq]
    refine ⟨by ring, by ring, by ring⟩
  exact ⟨rfl, hinv, by rw [hinv]⟩

/-- Witness for C8 at the concrete pixel (12, 200, 57). -/
theorem C8_complementary_involution_witness :
    get_complementary_color (12, 200, 57) = rgb_to_hex (comp_pixel (12, 200, 57))
    ∧ comp_pixel (comp_pixel (12, 200, 57)) = (12, 200, 57)
    ∧ (hlsOf (comp_pixel (comp_pixel (12, 200, 57)))).1 = (hlsOf (12, 200, 57)).1 :=
  C8_complementary_involution (12, 200, 57) (by decide)
